import Mathlib

/-!
Verification of the rate-limited polling and deduplication engine of the
bu-text-translation repository. Definitions are shallow embeddings of the
Python sources under `src/`; theorems settle the specification claims.
-/

namespace BuText

/-! ### Score comment parsing (src/utils/url_parser.py) -/

/-- `\d` character class of the score regex. -/
def isDigitChar (c : Char) : Bool := c.isDigit

/-- `\w` character class of the score regex (letters, digits, underscore). -/
def isWordChar (c : Char) : Bool := c.isAlpha || c.isDigit || c = '_'

/-- `\s` character class, also used by Python `str.strip`. -/
def isSpaceChar (c : Char) : Bool := c = ' ' || c = '\t' || c = '\n' || c = '\r'

/-- Python `text.strip()` on a character list. -/
def trimChars (cs : List Char) : List Char :=
  ((cs.dropWhile isSpaceChar).reverse.dropWhile isSpaceChar).reverse

/-- Python `int()` applied to a nonempty digit string. -/
def natOfDigits (ds : List Char) : Nat :=
  ds.foldl (fun n c => 10 * n + (c.toNat - 48)) 0

/-- Matching of the anchored regex `^(\d+)-(\d+)(?:\s+(\w+))?$` from
`parse_score_comment`.  All character classes are disjoint, so greedy
maximal munch is equivalent to the backtracking semantics. -/
def parseScoreChars (cs : List Char) : Option (Nat × Nat × String) :=
  let d1 := cs.takeWhile isDigitChar
  let r1 := cs.dropWhile isDigitChar
  if d1.isEmpty then none else
  match r1 with
  | '-' :: r2 =>
    let d2 := r2.takeWhile isDigitChar
    let r3 := r2.dropWhile isDigitChar
    if d2.isEmpty then none else
    match r3 with
    | [] => some (natOfDigits d1, natOfDigits d2, "")
    | _ =>
      let ws := r3.takeWhile isSpaceChar
      let r4 := r3.dropWhile isSpaceChar
      let w := r4.takeWhile isWordChar
      let r5 := r4.dropWhile isWordChar
      if ws.isEmpty || w.isEmpty || !r5.isEmpty then none
      else some (natOfDigits d1, natOfDigits d2, String.mk w)
  | _ => none

/-- `parse_score_comment` from src/utils/url_parser.py: returns
`(our_score, opponent_score, surname)` or `none`. -/
def parse_score_comment (text : String) : Option (Nat × Nat × String) :=
  parseScoreChars (trimChars text.data)

/-- `is_score_comment` from src/utils/url_parser.py. -/
def is_score_comment (text : String) : Bool :=
  (parse_score_comment text).isSome

/-! ### Score state machine
(`VKTranslationMonitor.send_comment_to_channel`, src/monitors/translation_monitor.py) -/

/-- A goal event posted to the channel. -/
inductive ScoreEvent where
  | OwnGoal (ours theirs : Nat) (surname : String)
  | OpponentGoal (ours theirs : Nat)
  deriving DecidableEq, Repr

/-- One comment fed through `send_comment_to_channel`: the state update and
the event (if any) it emits, as implemented in
src/monitors/translation_monitor.py lines 119-236. -/
def scoreStep (st : Nat × Nat) (text : String) : (Nat × Nat) × Option ScoreEvent :=
  match parse_score_comment text with
  | none => (st, none)
  | some (o, t, s) =>
    if o > st.1 then ((o, t), some (ScoreEvent.OwnGoal o t s))
    else if t > st.2 then ((o, t), some (ScoreEvent.OpponentGoal o t))
    else (st, none)

/-- Feeding a list of new comments through the machine in order, collecting
the emitted events. -/
def scoreRun (st : Nat × Nat) : List String → (Nat × Nat) × List ScoreEvent
  | [] => (st, [])
  | text :: rest =>
    let p := scoreStep st text
    let q := scoreRun p.1 rest
    (q.1, match p.2 with | none => q.2 | some e => e :: q.2)

/-- The score pair carried by an event. -/
def eventScore : ScoreEvent → Nat × Nat
  | ScoreEvent.OwnGoal o t _ => (o, t)
  | ScoreEvent.OpponentGoal o t => (o, t)

/-- Componentwise order on score pairs. -/
def pairLeB (p q : Nat × Nat) : Bool := p.1 ≤ q.1 && p.2 ≤ q.2

/-- The score values of an event list are non-decreasing in both components. -/
def scoresNonDecreasing (es : List ScoreEvent) : Prop :=
  List.Chain' (fun a b => pairLeB (eventScore a) (eventScore b) = true) es

/-! ### Priming (`VKTranslationMonitor.process_existing_comments`,
src/monitors/translation_monitor.py lines 294-335) -/

/-- Score tracking for one existing comment during priming: the state is
replaced whenever either component of the parsed score exceeds the
corresponding component of the current state (the `or` test at line 325).
No notification is sent. -/
def primeStep (st : Nat × Nat) (text : String) : Nat × Nat :=
  match parse_score_comment text with
  | none => st
  | some (o, t, _) => if o > st.1 || t > st.2 then (o, t) else st

/-- State obtained by priming over a list of comment texts in replay order. -/
def primeState (texts : List String) : Nat × Nat := texts.foldl primeStep (0, 0)

/-- `process_existing_comments`: the fetched comments `(id, text)` are
replayed in reverse, every id is marked seen, and the score state is primed;
no event is emitted.  Returns the seen ids and the primed state. -/
def process_existing_comments (comments : List (Nat × String)) :
    List Nat × (Nat × Nat) :=
  let replayed := comments.reverse
  (replayed.map Prod.fst, replayed.foldl (fun st c => primeStep st c.2) (0, 0))

/-! ### Live-state classification (src/api/vk_client.py lines 446-496) -/

/-- Raw provider video record, restricted to the fields the live-state
logic reads: `live` (absent, 1 or 2), `live_status` (absent or a string,
read with default `""`), `is_mobile_live` (read with default `False`) and
`type` (read with default `""`). -/
structure Video where
  live : Option Int
  live_status : Option String
  is_mobile_live : Bool
  type : Option String
  deriving DecidableEq, Repr

/-- `VKClient.is_live_stream`: the four-stage precedence logic, with the
final `finished`-wins override. -/
def is_live_stream (v : Video) : Bool :=
  let lss := v.live_status.getD ""
  let base := v.live == some 1 || lss == "started"
  let b1 := if v.is_mobile_live && lss != "finished" then true else base
  let b2 :=
    if v.type.getD "" == "live" || (v.live.isSome && v.live == some 1) then true
    else b1
  if lss == "finished" && v.live != some 1 then false else b2

/-- `VKClient.is_stream_ended`. -/
def is_stream_ended (v : Video) : Bool :=
  v.live == some 2 || v.live_status.getD "" == "finished"

/-! ### Monitor tick (`VKTranslationMonitor.check_comments`,
src/monitors/translation_monitor.py lines 69-117) -/

/-- Outcome of the metadata fetch as seen by `check_comments`: a video
record, a `None` return (the client logged "Video not found or access
denied"), or a raised exception. -/
inductive FetchResult (α : Type) where
  | ok (a : α)
  | noItems
  | raised
  deriving Repr

/-- Input of one polling tick: the metadata fetch outcome and the comments
fetch outcome (`none` when the comments fetch raised). Comments are
`(id, text)` pairs. -/
structure TickInput where
  info : FetchResult Video
  comments : Option (List (Nat × String))

/-- One `check_comments` tick over the seen-comment set.  Returns whether
monitoring continues, the new seen set, and the ids for which an event
emission was attempted (every unseen id is added to the seen set in the
first loop, before any emission attempt of the second loop; a raised
exception is caught and keeps the monitor polling). -/
def check_comments (seen : List Nat) (inp : TickInput) :
    Bool × List Nat × List Nat :=
  match inp.info with
  | FetchResult.raised => (true, seen, [])
  | FetchResult.noItems => (false, seen, [])
  | FetchResult.ok v =>
    if is_stream_ended v then (false, seen, [])
    else
      match inp.comments with
      | none => (true, seen, [])
      | some cs =>
        let r := cs.foldl
          (fun (acc : List Nat × List Nat) c =>
            if c.1 ∈ acc.1 then acc else (c.1 :: acc.1, acc.2 ++ [c.1]))
          (seen, [])
        (true, r.1, r.2)

/-- The monitoring loop of `start_monitoring`: ticks run until
`check_comments` returns `False`.  Returns the final seen set and the
per-tick lists of emission-attempted ids. -/
def runTicks (seen : List Nat) : List TickInput → List Nat × List (List Nat)
  | [] => (seen, [])
  | inp :: rest =>
    let r := check_comments seen inp
    if r.1 then
      let q := runTicks r.2.1 rest
      (q.1, r.2.2 :: q.2)
    else (r.2.1, [r.2.2])

/-! ### Group monitor seen set (`VKGroupStreamMonitor.check_for_new_streams`,
src/monitors/group_stream_monitor.py lines 123-134) -/

/-- Seen-set update for the inspected candidate video: a live stream key is
added if not present; an ended, previously seen key is discarded
(`self.seen_streams.discard(video_id)`). -/
def group_seen_update (seen : List String) (v : Video) (key : String) :
    List String :=
  if is_live_stream v then
    (if key ∈ seen then seen else key :: seen)
  else if is_stream_ended v ∧ key ∈ seen then seen.erase key
  else seen

/-! ### Rate limiter (`VKRateLimiter`, src/api/vk_client.py lines 18-118) -/

/-- Limiter state: the trailing-window call timestamps and the last-call
timestamp.  Time is modelled in whole seconds. -/
structure RL where
  callTimes : List Int
  lastCall : Int
  deriving DecidableEq, Repr

/-- Drop call times older than 60 seconds. -/
def cleanTimes (now : Int) (ts : List Int) : List Int :=
  ts.filter (fun t => now - t < 60)

/-- Python `min` over a nonempty list (`0` on the unreachable empty list). -/
def listMin : List Int → Int
  | [] => 0
  | t :: ts => ts.foldl min t

/-- `VKRateLimiter.wait_if_needed`, with `asyncio.sleep` modelled as
advancing the clock exactly to the wake time.  The whole body runs under
`_rate_limit_lock`, so successive invocations are serialized.  Returns the
permitted call time and the updated limiter state. -/
def wait_if_needed (now : Int) (s : RL) : Int × RL :=
  let ts := cleanTimes now s.callTimes
  let p :=
    if 3 ≤ ts.length then
      let wu := listMin ts + 60
      if 0 < wu - now then (wu, cleanTimes wu ts) else (now, ts)
    else (now, ts)
  let n2 := if p.1 - s.lastCall < 20 then s.lastCall + 20 else p.1
  (n2, ⟨p.2 ++ [n2], n2⟩)

/-- `VKRateLimiter.mark_call_complete`: re-stamp the last-call time to the
completion time. -/
def mark_call_complete (now : Int) (s : RL) : RL := ⟨s.callTimes, now⟩

/-- A sequence of acquire/complete cycles: each element is the arrival time
of the call and the nonnegative delay until its completion is stamped by
`mark_call_complete`.  Returns the permitted call timestamps. -/
def runCycles (s : RL) : List (Int × Int) → List Int
  | [] => []
  | c :: rest =>
    let r := wait_if_needed c.1 s
    r.1 :: runCycles (mark_call_complete (r.1 + c.2) r.2) rest

/-! ### Retry policy (src/api/vk_client.py) -/

/-- Outcome of one raw VK API attempt: a payload, an `ApiError` with its
(optional) code, or another exception. -/
inductive ApiOutcome (α : Type) where
  | ok (a : α)
  | apiErr (code : Option Int)
  | exn
  deriving DecidableEq, Repr

/-- Result of a wrapped call: success, a re-raised outcome, or the
response stream ran out while the loop would have kept retrying. -/
inductive CallResult (α : Type) where
  | success (a : α)
  | raised (e : ApiOutcome α)
  | pending
  deriving DecidableEq, Repr

/-- The retry loop shared by `get_video_info` and `get_video_comments`:
on error code 29, `handle_rate_limit_error` sleeps `10 * 2 ^ retry_count`
seconds and the call is retried while `retry_count < maxRetries`; any other
error is re-raised at once.  `responses` is the stream of raw outcomes of
successive attempts; returns the backoff sleeps performed and the final
result. -/
def vkRetryLoop (maxRetries : Nat) : Nat → List (ApiOutcome α) →
    List Nat × CallResult α
  | _, [] => ([], CallResult.pending)
  | rc, r :: rest =>
    match r with
    | ApiOutcome.ok a => ([], CallResult.success a)
    | ApiOutcome.apiErr c =>
      if c == some 29 then
        if rc < maxRetries then
          let q := vkRetryLoop maxRetries (rc + 1) rest
          (10 * 2 ^ rc :: q.1, q.2)
        else ([], CallResult.raised (ApiOutcome.apiErr c))
      else ([], CallResult.raised (ApiOutcome.apiErr c))
    | ApiOutcome.exn => ([], CallResult.raised ApiOutcome.exn)

/-- Error handling of `get_video_info` (src/api/vk_client.py lines
188-276): the retry loop with `max_retries = 3`. -/
def get_video_info_call (responses : List (ApiOutcome α)) :
    List Nat × CallResult α :=
  vkRetryLoop 3 0 responses

/-- Error handling of `get_video_comments` (src/api/vk_client.py lines
290-352): the retry loop with `max_retries = 3`. -/
def get_video_comments_call (responses : List (ApiOutcome α)) :
    List Nat × CallResult α :=
  vkRetryLoop 3 0 responses

/-- Error handling of `get_group_videos` (src/api/vk_client.py lines
354-444), at the level of the already-extracted video list: the wall.get
call sits inside an inner `except Exception` handler that swallows every
error — including rate-limit code 29 — with a warning, after which the
function returns the empty list.  No backoff sleep and no retry happen. -/
def get_group_videos_call (r : ApiOutcome (List α)) :
    List Nat × CallResult (List α) :=
  match r with
  | ApiOutcome.ok vs => ([], CallResult.success vs)
  | _ => ([], CallResult.success [])

/-! ### Result cache (src/api/vk_client.py lines 133-135 and 175-227) -/

/-- Cache lookup step of `get_video_info`: a hit within the 30 second TTL
returns the entry; an expired entry is deleted and the lookup is a miss.
Entries are `(key, value, insertion time)` triples with pairwise distinct
keys. -/
def cacheGet (now : Int) (key : String) (c : List (String × α × Int)) :
    Option α × List (String × α × Int) :=
  match c.find? (fun e => e.1 == key) with
  | none => (none, c)
  | some e =>
    if now - e.2.2 < 30 then (some e.2.1, c)
    else (none, c.filter (fun x => x.1 != key))

/-- Ordering of cache entries by insertion time (the `sorted` key at
line 225). -/
def entryLe (a b : String × α × Int) : Bool := decide (a.2.2 ≤ b.2.2)

/-- Cache store step of `get_video_info` (lines 219-227): store under
`now`; if more than 100 entries remain, sort by insertion time and keep
only the newest 100 (re-insertion of an existing key is modelled at the end
of the list; entries with distinct insertion times are unaffected by
this). -/
def cachePut (now : Int) (key : String) (v : α)
    (c : List (String × α × Int)) : List (String × α × Int) :=
  let c1 := c.filter (fun x => x.1 != key) ++ [(key, v, now)]
  if 100 < c1.length then (c1.mergeSort entryLe).drop (c1.length - 100)
  else c1

/-! ### Helper lemmas -/

/-- The parsed score pairs of a comment text list, in order. -/
def parsedPairs (texts : List String) : List (Nat × Nat) :=
  texts.filterMap (fun t => (parse_score_comment t).map (fun p => (p.1, p.2.1)))

/-- Priming step on an already-parsed score pair. -/
def primePairStep (st p : Nat × Nat) : Nat × Nat :=
  if p.1 > st.1 || p.2 > st.2 then p else st

lemma primeStep_eq (st : Nat × Nat) (text : String) :
    primeStep st text =
      match parse_score_comment text with
      | none => st
      | some p => primePairStep st (p.1, p.2.1) := by
  unfold primeStep primePairStep
  cases hp : parse_score_comment text with
  | none => rfl
  | some p => rfl

lemma parsedPairs_cons (text : String) (rest : List String) :
    parsedPairs (text :: rest) =
      (match parse_score_comment text with
        | none => parsedPairs rest
        | some p => (p.1, p.2.1) :: parsedPairs rest) := by
  unfold parsedPairs
  rw [List.filterMap_cons]
  cases parse_score_comment text <;> rfl

lemma foldl_primeStep_eq : ∀ (texts : List String) (st : Nat × Nat),
    texts.foldl primeStep st = (parsedPairs texts).foldl primePairStep st
  | [], _ => rfl
  | text :: rest, st => by
    rw [List.foldl_cons, primeStep_eq, parsedPairs_cons]
    cases hp : parse_score_comment text with
    | none => exact foldl_primeStep_eq rest st
    | some p => rw [List.foldl_cons]; exact foldl_primeStep_eq rest _

lemma foldl_primePairStep_chain : ∀ (ps : List (Nat × Nat)) (st : Nat × Nat),
    List.Chain' (fun a b => pairLeB a b = true) (st :: ps) →
    ps.foldl primePairStep st = ps.getLastD st
  | [], _, _ => rfl
  | p :: rest, st, h => by
    rw [List.chain'_cons] at h
    obtain ⟨h1, h2⟩ := h
    have hstep : primePairStep st p = p := by
      unfold pairLeB at h1
      simp only [Bool.and_eq_true, decide_eq_true_eq] at h1
      unfold primePairStep
      split
      · rfl
      · rename_i hc
        simp only [gt_iff_lt, Bool.or_eq_true, decide_eq_true_eq, not_or,
          not_lt] at hc
        exact Prod.ext_iff.mpr ⟨le_antisymm h1.1 hc.1, le_antisymm h1.2 hc.2⟩
    rw [List.foldl_cons, hstep, foldl_primePairStep_chain rest p h2,
      List.getLastD_cons]

lemma foldl_seen_mem : ∀ (cs : List (Nat × String)) (acc : List Nat × List Nat)
    (i : Nat), i ∈ acc.1 →
    i ∈ (cs.foldl
          (fun (acc : List Nat × List Nat) c =>
            if c.1 ∈ acc.1 then acc else (c.1 :: acc.1, acc.2 ++ [c.1]))
          acc).1
  | [], _, _, h => h
  | c :: cs, acc, i, h => by
    rw [List.foldl_cons]
    apply foldl_seen_mem cs
    dsimp only
    split
    · exact h
    · exact List.mem_cons_of_mem _ h

/-! ## Claim theorems -/

/-- C1: for every new comment whose text parses as a score
`(newOurs, newTheirs, surname)` against state `(ours, theirs)`, an OwnGoal
event is emitted and the state updated when `newOurs > ours`, else an
OpponentGoal event when `newTheirs > theirs`, else nothing happens; feeding
`["0-0", "1-0 Smith", "1-0 Smith", "1-1", "2-1 Jones"]` to a machine in
state `(0, 0)` yields exactly
`[OwnGoal 1 0 "Smith", OpponentGoal 1 1, OwnGoal 2 1 "Jones"]`. -/
theorem claim_C1 :
    (∀ (st : Nat × Nat) (text : String) (o t : Nat) (s : String),
        parse_score_comment text = some (o, t, s) →
        scoreStep st text =
          if o > st.1 then ((o, t), some (ScoreEvent.OwnGoal o t s))
          else if t > st.2 then ((o, t), some (ScoreEvent.OpponentGoal o t))
          else (st, none)) ∧
    (scoreRun (0, 0) ["0-0", "1-0 Smith", "1-0 Smith", "1-1", "2-1 Jones"]).2 =
      [ScoreEvent.OwnGoal 1 0 "Smith", ScoreEvent.OpponentGoal 1 1,
        ScoreEvent.OwnGoal 2 1 "Jones"] := by
  refine ⟨?_, by decide⟩
  intro st text o t s h
  unfold scoreStep
  rw [h]

/-- Witness for C1 at a concrete input. -/
theorem claim_C1_witness :
    parse_score_comment "1-0 Smith" = some (1, 0, "Smith") ∧
    scoreStep (0, 0) "1-0 Smith" =
      ((1, 0), some (ScoreEvent.OwnGoal 1 0 "Smith")) := by
  have h : parse_score_comment "1-0 Smith" = some (1, 0, "Smith") := by decide
  refine ⟨h, ?_⟩
  rw [claim_C1.1 (0, 0) "1-0 Smith" 1 0 "Smith" h]
  decide

/-- C2 fails on the code: from state `(0, 0)` the comments
`["1-1", "2-0"]` emit `OwnGoal 1 1` then `OwnGoal 2 0`, whose theirs
component decreases from 1 to 0, so the emitted score sequence is not
non-decreasing in both components. -/
theorem claim_C2_counterexample :
    (scoreRun (0, 0) ["1-1", "2-0"]).2 =
      [ScoreEvent.OwnGoal 1 1 "", ScoreEvent.OwnGoal 2 0 ""] ∧
    ¬ scoresNonDecreasing (scoreRun (0, 0) ["1-1", "2-0"]).2 := by
  have h2 : (scoreRun (0, 0) ["1-1", "2-0"]).2 =
      [ScoreEvent.OwnGoal 1 1 "", ScoreEvent.OwnGoal 2 0 ""] := by decide
  refine ⟨h2, ?_⟩
  unfold scoresNonDecreasing
  rw [h2]
  simp [List.chain'_cons, eventScore, pairLeB]

/-- C2 amended: on each accepted update only the triggering component is
guaranteed to increase — an emitted OwnGoal has `ours` strictly above the
pre-event state's `ours`, an emitted OpponentGoal has `theirs` strictly
above the pre-event state's `theirs`, and the state becomes the event's
score; the other component may decrease. -/
theorem claim_C2_amended :
    ∀ (st : Nat × Nat) (text : String) (e : ScoreEvent),
      (scoreStep st text).2 = some e →
      ((∃ o t s, e = ScoreEvent.OwnGoal o t s ∧ st.1 < o ∧
          (scoreStep st text).1 = (o, t)) ∨
        (∃ o t, e = ScoreEvent.OpponentGoal o t ∧ st.2 < t ∧
          (scoreStep st text).1 = (o, t))) := by
  intro st text e h
  rcases hp : parse_score_comment text with _ | ⟨o, t, s⟩
  · unfold scoreStep at h
    rw [hp] at h
    simp at h
  · have hs : scoreStep st text =
        if o > st.1 then ((o, t), some (ScoreEvent.OwnGoal o t s))
        else if t > st.2 then ((o, t), some (ScoreEvent.OpponentGoal o t))
        else (st, none) := by
      unfold scoreStep
      rw [hp]
    rw [hs] at h ⊢
    by_cases h1 : o > st.1
    · rw [if_pos h1] at h ⊢
      left
      exact ⟨o, t, s, (Option.some.inj h).symm, h1, rfl⟩
    · rw [if_neg h1] at h ⊢
      by_cases h2 : t > st.2
      · rw [if_pos h2] at h ⊢
        right
        exact ⟨o, t, (Option.some.inj h).symm, h2, rfl⟩
      · rw [if_neg h2] at h
        simp at h

/-- Witness for the amended C2 at a concrete input. -/
theorem claim_C2_witness :
    (∃ o t s, ScoreEvent.OwnGoal 1 0 "Smith" = ScoreEvent.OwnGoal o t s ∧
        (0, 0).1 < o ∧ (scoreStep (0, 0) "1-0 Smith").1 = (o, t)) ∨
      (∃ o t, ScoreEvent.OwnGoal 1 0 "Smith" = ScoreEvent.OpponentGoal o t ∧
        (0, 0).2 < t ∧ (scoreStep (0, 0) "1-0 Smith").1 = (o, t)) :=
  claim_C2_amended (0, 0) "1-0 Smith" (ScoreEvent.OwnGoal 1 0 "Smith")
    (by decide)

/-- C3: `is_live_stream` returns false whenever `live_status` is
`"finished"` and the `live` field is not 1, regardless of `is_mobile_live`
and `type`; in particular for `live_status = "finished"`,
`is_mobile_live = true` and `live` absent. -/
theorem claim_C3 :
    (∀ v : Video, v.live_status.getD "" = "finished" → v.live ≠ some 1 →
        is_live_stream v = false) ∧
    (∀ (iml : Bool) (ty : Option String),
        is_live_stream ⟨none, some "finished", iml, ty⟩ = false) := by
  constructor
  · intro v h1 h2
    unfold is_live_stream
    rw [h1]
    have hb : (v.live != some 1) = true := bne_iff_ne.mpr h2
    simp [hb]
  · intro iml ty
    unfold is_live_stream
    simp

/-- Witness for C3 at a concrete input. -/
theorem claim_C3_witness :
    is_live_stream ⟨none, some "finished", true, none⟩ = false :=
  claim_C3.1 ⟨none, some "finished", true, none⟩ (by decide) (by decide)

/-- C4 fails on the code: priming over fetched comments
`[(2, "1-1"), (1, "2-0")]` (replayed oldest-to-newest as `"2-0"` then
`"1-1"`) leaves the state `(1, 1)`, which does not dominate the parsed
score pair `(2, 0)` seen during priming — the state is not the highest
score pair seen. -/
theorem claim_C4_counterexample :
    (process_existing_comments [(2, "1-1"), (1, "2-0")]).2 = (1, 1) ∧
    parse_score_comment "2-0" = some (2, 0, "") ∧
    pairLeB (2, 0) (1, 1) = false := by
  refine ⟨?_, by decide, by decide⟩
  unfold process_existing_comments
  decide

/-- C4 amended: priming marks every fetched comment id seen and emits no
event; the state is the fold that replaces the current pair whenever
either component of a parsed score exceeds it, which — whenever the
replayed parsed scores are componentwise non-decreasing — equals the last
(highest) parsed score pair, and `(0, 0)` when there are no score
comments. -/
theorem claim_C4_amended :
    ∀ comments : List (Nat × String),
      (process_existing_comments comments).1 =
        comments.reverse.map Prod.fst ∧
      (List.Chain' (fun a b => pairLeB a b = true)
          (parsedPairs (comments.reverse.map Prod.snd)) →
        (process_existing_comments comments).2 =
          (parsedPairs (comments.reverse.map Prod.snd)).getLastD (0, 0)) := by
  intro comments
  constructor
  · rfl
  · intro hchain
    unfold process_existing_comments
    dsimp only
    rw [show (fun (st : Nat × Nat) (c : Nat × String) => primeStep st c.2) =
          (fun st c => primeStep st (Prod.snd c)) from rfl,
      ← List.foldl_map Prod.snd primeStep, foldl_primeStep_eq]
    apply foldl_primePairStep_chain
    rw [List.chain'_cons']
    refine ⟨?_, hchain⟩
    intro h _
    unfold pairLeB
    simp

/-- Witness for the amended C4 at a concrete input. -/
theorem claim_C4_witness :
    (process_existing_comments [(2, "2-1"), (1, "1-1")]).1 = [1, 2] ∧
    (process_existing_comments [(2, "2-1"), (1, "1-1")]).2 = (2, 1) := by
  have h := claim_C4_amended [(2, "2-1"), (1, "1-1")]
  have hps : parsedPairs (List.map Prod.snd
      ([(2, "2-1"), (1, "1-1")] : List (Nat × String)).reverse) =
        [(1, 1), (2, 1)] := by decide
  have h2 := h.2 (by rw [hps]; simp [List.chain'_cons, pairLeB])
  exact ⟨by rw [h.1]; rfl, by rw [h2, hps]; decide⟩

/-- C5: a tick whose metadata fetch comes back empty (logged as "video not
found or access denied") stops the monitor; a tick whose provider call
raises any other error — on the metadata fetch or on the comments fetch —
keeps the monitor polling. -/
theorem claim_C5 :
    (∀ (seen : List Nat) (cres : Option (List (Nat × String))),
        (check_comments seen ⟨FetchResult.noItems, cres⟩).1 = false) ∧
    (∀ (seen : List Nat) (cres : Option (List (Nat × String))),
        (check_comments seen ⟨FetchResult.raised, cres⟩).1 = true) ∧
    (∀ (seen : List Nat) (v : Video), is_stream_ended v = false →
        (check_comments seen ⟨FetchResult.ok v, none⟩).1 = true) := by
  refine ⟨fun _ _ => rfl, fun _ _ => rfl, ?_⟩
  intro seen v h
  unfold check_comments
  simp [h]

/-- Witness for C5 at concrete inputs. -/
theorem claim_C5_witness :
    (check_comments [] ⟨FetchResult.noItems, none⟩).1 = false ∧
    (check_comments [] ⟨FetchResult.raised, none⟩).1 = true ∧
    (check_comments [] ⟨FetchResult.ok ⟨none, none, false, none⟩, none⟩).1 =
      true :=
  ⟨claim_C5.1 [] none, claim_C5.2.1 [] none,
    claim_C5.2.2 [] ⟨none, none, false, none⟩ (by decide)⟩

/-- C6 fails on the code: `check_for_new_streams` discards the key of a
previously seen stream once it is observed ended, so the group monitor's
seen set shrinks while the monitor is alive. -/
theorem claim_C6_counterexample :
    "k" ∈ ["k"] ∧
    group_seen_update ["k"] ⟨some 2, some "finished", false, none⟩ "k" = [] := by
  refine ⟨by simp, ?_⟩
  unfold group_seen_update
  decide

lemma check_comments_seen_mem (seen : List Nat) (inp : TickInput) (i : Nat)
    (h : i ∈ seen) : i ∈ (check_comments seen inp).2.1 := by
  unfold check_comments
  rcases inp with ⟨info, cres⟩
  cases info with
  | raised => exact h
  | noItems => exact h
  | ok v =>
    dsimp only
    split
    · exact h
    · cases cres with
      | none => exact h
      | some cs => exact foldl_seen_mem cs (seen, []) i h

/-- C6 amended: the comment seen set of a stream monitor only grows; the
group monitor's stream seen set only loses an element when that element is
the inspected key and its video is ended and not live. -/
theorem claim_C6_amended :
    (∀ (seen : List Nat) (inp : TickInput) (i : Nat), i ∈ seen →
        i ∈ (check_comments seen inp).2.1) ∧
    (∀ (seen : List String) (v : Video) (key k2 : String), k2 ∈ seen →
        k2 ∉ group_seen_update seen v key →
        is_live_stream v = false ∧ is_stream_ended v = true ∧ k2 = key ∧
          key ∈ seen) := by
  constructor
  · exact check_comments_seen_mem
  · intro seen v key k2 h1 h2
    unfold group_seen_update at h2
    by_cases hl : is_live_stream v = true
    · rw [if_pos hl] at h2
      exfalso
      by_cases hk : key ∈ seen
      · rw [if_pos hk] at h2; exact h2 h1
      · rw [if_neg hk] at h2; exact h2 (List.mem_cons_of_mem _ h1)
    · rw [if_neg hl] at h2
      rw [Bool.not_eq_true] at hl
      by_cases he : is_stream_ended v = true ∧ key ∈ seen
      · rw [if_pos he] at h2
        refine ⟨hl, he.1, ?_, he.2⟩
        by_contra hne
        exact h2 ((List.mem_erase_of_ne hne).mpr h1)
      · rw [if_neg he] at h2
        exact absurd h1 h2

/-- Witness for the amended C6 at concrete inputs. -/
theorem claim_C6_witness :
    (1 ∈ (check_comments [1] ⟨FetchResult.raised, none⟩).2.1) ∧
    (is_live_stream ⟨some 2, some "finished", false, none⟩ = false ∧
      is_stream_ended ⟨some 2, some "finished", false, none⟩ = true ∧
      "k" = "k" ∧ "k" ∈ (["k"] : List String)) :=
  ⟨claim_C6_amended.1 [1] ⟨FetchResult.raised, none⟩ 1 (by simp),
    claim_C6_amended.2 ["k"] ⟨some 2, some "finished", false, none⟩ "k" "k"
      (by simp) (by decide)⟩

lemma wait_if_needed_lb (now : Int) (s : RL) :
    s.lastCall + 20 ≤ (wait_if_needed now s).1 := by
  unfold wait_if_needed
  dsimp only
  split <;> omega

lemma runCycles_lb : ∀ (cycles : List (Int × Int)) (s : RL),
    (∀ c ∈ cycles, 0 ≤ c.2) → ∀ x ∈ runCycles s cycles,
    s.lastCall + 20 ≤ x
  | [], _, _, x, hx => by simp [runCycles] at hx
  | c :: rest, s, h, x, hx => by
    simp only [runCycles] at hx
    rcases List.mem_cons.mp hx with h1 | h2
    · exact h1 ▸ wait_if_needed_lb c.1 s
    · have hrest := runCycles_lb rest _
        (fun d hd => h d (List.mem_cons_of_mem _ hd)) x h2
      have h0 : 0 ≤ c.2 := h c (List.mem_cons_self _ _)
      have hlb := wait_if_needed_lb c.1 s
      simp only [mark_call_complete] at hrest
      omega

lemma runCycles_pairwise : ∀ (cycles : List (Int × Int)) (s : RL),
    (∀ c ∈ cycles, 0 ≤ c.2) →
    (runCycles s cycles).Pairwise (fun a b => a + 20 ≤ b)
  | [], _, _ => by simp [runCycles]
  | c :: rest, s, h => by
    simp only [runCycles]
    refine List.Pairwise.cons ?_
      (runCycles_pairwise rest _ (fun d hd => h d (List.mem_cons_of_mem _ hd)))
    intro x hx
    have hmem := runCycles_lb rest _
      (fun d hd => h d (List.mem_cons_of_mem _ hd)) x hx
    have h0 : 0 ≤ c.2 := h c (List.mem_cons_self _ _)
    simp only [mark_call_complete] at hmem
    omega

lemma window_len (T : Int) : ∀ (l : List Int),
    l.Pairwise (fun a b => a + 20 ≤ b) →
    (∀ x ∈ l, T - 60 < x ∧ x ≤ T) → l.length ≤ 3
  | [], _, _ => by simp
  | [_], _, _ => by simp
  | [_, _], _, _ => by simp
  | [_, _, _], _, _ => by simp
  | a :: b :: c :: d :: rest, hp, hm => by
    exfalso
    rw [List.pairwise_cons] at hp
    obtain ⟨ha, hp⟩ := hp
    rw [List.pairwise_cons] at hp
    obtain ⟨hb, hp⟩ := hp
    rw [List.pairwise_cons] at hp
    obtain ⟨hc, _⟩ := hp
    have h1 : a + 20 ≤ b := ha b (by simp)
    have h2 : b + 20 ≤ c := hb c (by simp)
    have h3 : c + 20 ≤ d := hc d (by simp)
    have h4 := (hm a (by simp)).1
    have h5 := (hm d (by simp)).2
    omega

lemma pairwise_window_count (l : List Int) (T : Int)
    (h : l.Pairwise (fun a b => a + 20 ≤ b)) :
    l.countP (fun x => decide (T - 60 < x) && decide (x ≤ T)) ≤ 3 := by
  rw [List.countP_eq_length_filter]
  refine window_len T _ (h.filter _) ?_
  intro x hx
  have := List.of_mem_filter hx
  simpa using this

/-- C7: permitted call timestamps of any acquire/complete run are pairwise
at least 20 seconds apart; at most 3 of them fall in any trailing
60-second window; and when the trailing window is full the wake time is
computed from the oldest timestamp in the window, with the per-call
spacing re-evaluated against that wake time. -/
theorem claim_C7 :
    (∀ (s : RL) (cycles : List (Int × Int)), (∀ c ∈ cycles, 0 ≤ c.2) →
        (runCycles s cycles).Pairwise (fun a b => a + 20 ≤ b)) ∧
    (∀ (s : RL) (cycles : List (Int × Int)) (T : Int),
        (∀ c ∈ cycles, 0 ≤ c.2) →
        (runCycles s cycles).countP
          (fun x => decide (T - 60 < x) && decide (x ≤ T)) ≤ 3) ∧
    (∀ (now : Int) (s : RL), 3 ≤ (cleanTimes now s.callTimes).length →
        0 < listMin (cleanTimes now s.callTimes) + 60 - now →
        (wait_if_needed now s).1 =
          (if listMin (cleanTimes now s.callTimes) + 60 - s.lastCall < 20
            then s.lastCall + 20
            else listMin (cleanTimes now s.callTimes) + 60)) := by
  refine ⟨fun s cycles h => runCycles_pairwise cycles s h, ?_, ?_⟩
  · intro s cycles T h
    exact pairwise_window_count _ T (runCycles_pairwise cycles s h)
  · intro now s h1 h2
    unfold wait_if_needed
    dsimp only
    rw [if_pos h1, if_pos h2]

/-- Witness for C7 at concrete inputs. -/
theorem claim_C7_witness :
    ((runCycles ⟨[], 0⟩ [(100, 0), (105, 0)]).Pairwise
      fun a b => a + 20 ≤ b) ∧
    ((runCycles ⟨[], 0⟩ [(100, 0), (105, 0)]).countP
      (fun x => decide ((130 : Int) - 60 < x) && decide (x ≤ 130)) ≤ 3) ∧
    (wait_if_needed 55 ⟨[0, 25, 50], 50⟩).1 =
      (if listMin (cleanTimes 55 (RL.mk [0, 25, 50] 50).callTimes) + 60 -
          (RL.mk [0, 25, 50] 50).lastCall < 20
        then (RL.mk [0, 25, 50] 50).lastCall + 20
        else listMin (cleanTimes 55 (RL.mk [0, 25, 50] 50).callTimes) + 60) :=
  ⟨claim_C7.1 ⟨[], 0⟩ [(100, 0), (105, 0)] (by decide),
    claim_C7.2.1 ⟨[], 0⟩ [(100, 0), (105, 0)] 130 (by decide),
    claim_C7.2.2 55 ⟨[0, 25, 50], 50⟩ (by decide) (by decide)⟩

lemma vkRetryLoop_sleeps_le {α : Type} :
    ∀ (rs : List (ApiOutcome α)) (m rc : Nat),
    (vkRetryLoop m rc rs).1.length ≤ m - rc
  | [], _, _ => by simp [vkRetryLoop]
  | r :: rest, m, rc => by
    unfold vkRetryLoop
    cases r with
    | ok a => simp
    | apiErr c =>
      dsimp only
      by_cases hc : (c == some 29) = true
      · rw [if_pos hc]
        by_cases hr : rc < m
        · rw [if_pos hr]
          have := vkRetryLoop_sleeps_le rest m (rc + 1)
          dsimp only
          rw [List.length_cons]
          omega
        · rw [if_neg hr]; simp
      · rw [if_neg hc]; simp
    | exn => simp

/-- C8 fails on the code for group broadcasts: a rate-limited error
(code 29) raised by the `wall.get` call of `get_group_videos` is swallowed
by the inner exception handler, and the call returns the empty list with
no backoff sleep, no retry, and no propagation. -/
theorem claim_C8_counterexample :
    get_group_videos_call (ApiOutcome.apiErr (some 29) : ApiOutcome (List Nat)) =
      ([], CallResult.success []) := rfl

/-- C8 amended: the video metadata and comment fetches share the retry
loop — error code 29 sleeps `10 * 2 ^ attempt` seconds (10, 20, 40) and
retries up to `maxRetries = 3` times, after which the error is propagated,
and any other error is propagated immediately; the group-broadcasts fetch
performs no local retry at all: every error, including code 29, is
swallowed into the empty result without a backoff sleep. -/
theorem claim_C8_amended :
    (∀ rest : List (ApiOutcome Nat),
        get_video_info_call
            (ApiOutcome.apiErr (some 29) :: ApiOutcome.apiErr (some 29) ::
              ApiOutcome.apiErr (some 29) :: ApiOutcome.apiErr (some 29) ::
              rest) =
          ([10, 20, 40], CallResult.raised (ApiOutcome.apiErr (some 29)))) ∧
    (∀ (c : Option Int) (rest : List (ApiOutcome Nat)), c ≠ some 29 →
        get_video_info_call (ApiOutcome.apiErr c :: rest) =
          ([], CallResult.raised (ApiOutcome.apiErr c))) ∧
    (∀ rest : List (ApiOutcome Nat),
        get_video_info_call (ApiOutcome.exn :: rest) =
          ([], CallResult.raised ApiOutcome.exn)) ∧
    (∀ rs : List (ApiOutcome Nat),
        get_video_comments_call rs = get_video_info_call rs) ∧
    (∀ rs : List (ApiOutcome Nat), (get_video_info_call rs).1.length ≤ 3) ∧
    (∀ r : ApiOutcome (List Nat), (get_group_videos_call r).1 = [] ∧
        ∀ c : Option Int, r = ApiOutcome.apiErr c →
          get_group_videos_call r = ([], CallResult.success [])) := by
  refine ⟨fun _ => rfl, ?_, fun _ => rfl, fun _ => rfl, ?_, ?_⟩
  · intro c rest h
    unfold get_video_info_call vkRetryLoop
    dsimp only
    rw [if_neg (by simp [h])]
  · intro rs
    exact vkRetryLoop_sleeps_le rs 3 0
  · intro r
    cases r with
    | ok vs => exact ⟨rfl, fun c h => by cases h⟩
    | apiErr c => exact ⟨rfl, fun c2 h => rfl⟩
    | exn => exact ⟨rfl, fun c h => by cases h⟩

/-- Witness for the amended C8 at concrete inputs. -/
theorem claim_C8_witness :
    get_video_info_call ([ApiOutcome.apiErr (some 5)] : List (ApiOutcome Nat)) =
      ([], CallResult.raised (ApiOutcome.apiErr (some 5))) ∧
    get_video_info_call
        ([ApiOutcome.apiErr (some 29), ApiOutcome.apiErr (some 29),
          ApiOutcome.apiErr (some 29), ApiOutcome.apiErr (some 29)] :
          List (ApiOutcome Nat)) =
      ([10, 20, 40], CallResult.raised (ApiOutcome.apiErr (some 29))) :=
  ⟨claim_C8_amended.2.1 (some 5) [] (by decide), claim_C8_amended.1 []⟩

lemma foldl_seen_invariant : ∀ (cs : List (Nat × String))
    (acc : List Nat × List Nat), acc.2.Nodup → (∀ i ∈ acc.2, i ∈ acc.1) →
    ((cs.foldl
        (fun (acc : List Nat × List Nat) c =>
          if c.1 ∈ acc.1 then acc else (c.1 :: acc.1, acc.2 ++ [c.1]))
        acc).2.Nodup ∧
      (∀ i ∈ (cs.foldl
          (fun (acc : List Nat × List Nat) c =>
            if c.1 ∈ acc.1 then acc else (c.1 :: acc.1, acc.2 ++ [c.1]))
          acc).2,
        i ∈ (cs.foldl
          (fun (acc : List Nat × List Nat) c =>
            if c.1 ∈ acc.1 then acc else (c.1 :: acc.1, acc.2 ++ [c.1]))
          acc).1) ∧
      (∀ i ∈ (cs.foldl
          (fun (acc : List Nat × List Nat) c =>
            if c.1 ∈ acc.1 then acc else (c.1 :: acc.1, acc.2 ++ [c.1]))
          acc).2, i ∈ acc.2 ∨ i ∉ acc.1))
  | [], acc, h1, h2 => ⟨h1, h2, fun i hi => Or.inl hi⟩
  | c :: cs, acc, h1, h2 => by
    rw [List.foldl_cons]
    by_cases hc : c.1 ∈ acc.1
    · dsimp only
      rw [if_pos hc]
      exact foldl_seen_invariant cs acc h1 h2
    · dsimp only
      rw [if_neg hc]
      have h1' : (acc.2 ++ [c.1]).Nodup := by
        rw [List.nodup_append]
        refine ⟨h1, List.nodup_singleton _, ?_⟩
        intro a ha hb
        rw [List.mem_singleton] at hb
        exact hc (hb ▸ h2 a ha)
      have h2' : ∀ i ∈ (acc.2 ++ [c.1]), i ∈ c.1 :: acc.1 := by
        intro i hi
        rcases List.mem_append.mp hi with h | h
        · exact List.mem_cons_of_mem _ (h2 i h)
        · rw [List.mem_singleton] at h
          exact h ▸ List.mem_cons_self _ _
      obtain ⟨g1, g2, g3⟩ :=
        foldl_seen_invariant cs (c.1 :: acc.1, acc.2 ++ [c.1]) h1' h2'
      refine ⟨g1, g2, ?_⟩
      intro i hi
      rcases g3 i hi with h | h
      · rcases List.mem_append.mp h with h' | h'
        · exact Or.inl h'
        · rw [List.mem_singleton] at h'
          exact Or.inr (h' ▸ hc)
      · exact Or.inr fun hmem => h (List.mem_cons_of_mem _ hmem)

lemma check_comments_attempts (seen : List Nat) (inp : TickInput) :
    (check_comments seen inp).2.2.Nodup ∧
    (∀ i ∈ (check_comments seen inp).2.2,
      i ∈ (check_comments seen inp).2.1 ∧ i ∉ seen) := by
  unfold check_comments
  rcases inp with ⟨info, cres⟩
  cases info with
  | raised => exact ⟨List.nodup_nil, by simp⟩
  | noItems => exact ⟨List.nodup_nil, by simp⟩
  | ok v =>
    dsimp only
    split
    · exact ⟨List.nodup_nil, by simp⟩
    · cases cres with
      | none => exact ⟨List.nodup_nil, by simp⟩
      | some cs =>
        obtain ⟨g1, g2, g3⟩ :=
          foldl_seen_invariant cs (seen, []) List.nodup_nil (by simp)
        refine ⟨g1, fun i hi => ⟨g2 i hi, ?_⟩⟩
        rcases g3 i hi with h | h
        · simp at h
        · exact h

lemma runTicks_invariant : ∀ (ticks : List TickInput) (seen : List Nat),
    ((runTicks seen ticks).2.flatten).Nodup ∧
    (∀ i ∈ (runTicks seen ticks).2.flatten, i ∉ seen) ∧
    (∀ i ∈ seen, i ∈ (runTicks seen ticks).1) ∧
    (∀ i ∈ (runTicks seen ticks).2.flatten, i ∈ (runTicks seen ticks).1)
  | [], seen => by
    refine ⟨by simp [runTicks], by simp [runTicks], ?_, by simp [runTicks]⟩
    intro i h
    simpa [runTicks] using h
  | inp :: rest, seen => by
    simp only [runTicks]
    obtain ⟨t1, t2⟩ := check_comments_attempts seen inp
    have hseen := check_comments_seen_mem seen inp
    split
    · obtain ⟨g1, g2, g3, g4⟩ :=
        runTicks_invariant rest (check_comments seen inp).2.1
      dsimp only
      rw [List.flatten_cons]
      refine ⟨?_, ?_, ?_, ?_⟩
      · rw [List.nodup_append]
        refine ⟨t1, g1, ?_⟩
        intro a ha hb
        exact g2 a hb (t2 a ha).1
      · intro i hi
        rcases List.mem_append.mp hi with h | h
        · exact (t2 i h).2
        · exact fun hs => g2 i h (hseen i hs)
      · intro i hi
        exact g3 i (hseen i hi)
      · intro i hi
        rcases List.mem_append.mp hi with h | h
        · exact g3 i (t2 i h).1
        · exact g4 i h
    · dsimp only
      have hfl : ([(check_comments seen inp).2.2] : List (List Nat)).flatten =
          (check_comments seen inp).2.2 := by
        simp
      rw [hfl]
      exact ⟨t1, fun i hi => (t2 i hi).2, fun i hi => hseen i hi,
        fun i hi => (t2 i hi).1⟩

/-- C10: every id for which an event emission is attempted during a tick
was unseen at tick start and is in the seen set from that tick on (the
first loop of `check_comments` adds all unseen ids before the second loop
attempts any emission, and emission failures are caught without removing
ids); across any run of the monitoring loop each comment id is attempted
at most once, so a comment whose notification failed is never retried. -/
theorem claim_C10 :
    (∀ (seen : List Nat) (inp : TickInput) (i : Nat),
        i ∈ (check_comments seen inp).2.2 →
        i ∈ (check_comments seen inp).2.1 ∧ i ∉ seen) ∧
    (∀ (ticks : List TickInput) (seen : List Nat),
        ((runTicks seen ticks).2.flatten).Nodup ∧
        ∀ i ∈ (runTicks seen ticks).2.flatten, i ∉ seen) :=
  ⟨fun seen inp i h => (check_comments_attempts seen inp).2 i h,
    fun ticks seen => ⟨(runTicks_invariant ticks seen).1,
      (runTicks_invariant ticks seen).2.1⟩⟩

/-- Witness for C10 at a concrete input. -/
theorem claim_C10_witness :
    7 ∈ (check_comments []
        ⟨FetchResult.ok ⟨none, none, false, none⟩, some [(7, "x")]⟩).2.1 ∧
    (7 : Nat) ∉ ([] : List Nat) :=
  claim_C10.1 [] ⟨FetchResult.ok ⟨none, none, false, none⟩, some [(7, "x")]⟩ 7
    (by decide)

lemma entryLe_trans {α : Type} (a b c2 : String × α × Int)
    (h1 : entryLe a b = true) (h2 : entryLe b c2 = true) :
    entryLe a c2 = true := by
  unfold entryLe at h1 h2 ⊢
  simp only [decide_eq_true_eq] at h1 h2 ⊢
  omega

lemma entryLe_total {α : Type} (a b : String × α × Int) :
    (entryLe a b || entryLe b a) = true := by
  unfold entryLe
  simp only [Bool.or_eq_true, decide_eq_true_eq]
  omega

lemma find?_eq_some_of_unique {β : Type} {p : β → Bool} :
    ∀ (l : List β) (a : β), a ∈ l → p a = true →
      (∀ x ∈ l, p x = true → x = a) → l.find? p = some a
  | [], a, h, _, _ => absurd h (List.not_mem_nil a)
  | b :: l, a, hm, hp, hu => by
    by_cases hb : p b = true
    · rw [List.find?_cons_of_pos _ hb]
      exact congrArg some (hu b (List.mem_cons_self _ _) hb)
    · rw [List.find?_cons_of_neg _ hb]
      have ha : a ∈ l := by
        rcases List.mem_cons.mp hm with h | h
        · exact absurd (h ▸ hp) hb
        · exact h
      exact find?_eq_some_of_unique l a ha hp
        (fun x hx hpx => hu x (List.mem_cons_of_mem _ hx) hpx)

lemma mem_drop_last {β : Type} : ∀ (U : List β) (a : β) (k : Nat),
    k ≤ U.length → a ∈ (U ++ [a]).drop k
  | _, a, 0, _ => by simp
  | [], _, k + 1, h => by simp at h
  | b :: U, a, k + 1, h => by
    rw [List.cons_append, List.drop_succ_cons]
    exact mem_drop_last U a k (by simpa using h)

lemma mem_cachePut {α : Type} {now : Int} {key : String} {v : α}
    {c : List (String × α × Int)} {x : String × α × Int}
    (hx : x ∈ cachePut now key v c) :
    x ∈ c.filter (fun e => e.1 != key) ++ [(key, v, now)] := by
  unfold cachePut at hx
  dsimp only at hx
  split at hx
  · exact List.mem_mergeSort.mp (List.mem_of_mem_drop hx)
  · exact hx

lemma cachePut_base_keys_nodup {α : Type} (now : Int) (key : String) (v : α)
    (c : List (String × α × Int)) (hkeys : (c.map Prod.fst).Nodup) :
    ((c.filter (fun e => e.1 != key) ++ [(key, v, now)]).map
      Prod.fst).Nodup := by
  rw [List.map_append, List.nodup_append]
  refine ⟨List.Nodup.sublist
    (List.Sublist.map Prod.fst (List.filter_sublist c)) hkeys, by simp, ?_⟩
  intro a ha hb
  rw [List.map_singleton, List.mem_singleton] at hb
  obtain ⟨e, he, hea⟩ := List.mem_map.mp ha
  have := (List.mem_filter.mp he).2
  rw [bne_iff_ne] at this
  exact this (hea.trans hb)

lemma newEntry_last {α : Type} (now : Int) (key : String) (v : α)
    (c : List (String × α × Int)) (hkeys : (c.map Prod.fst).Nodup)
    (htime : ∀ e ∈ c, e.2.2 ≤ now) :
    ∃ U, (c.filter (fun e => e.1 != key) ++ [(key, v, now)]).mergeSort entryLe
      = U ++ [(key, v, now)] := by
  have hnodup : (c.filter (fun e => e.1 != key) ++ [(key, v, now)]).Nodup :=
    List.Nodup.of_map Prod.fst (cachePut_base_keys_nodup now key v c hkeys)
  have hperm := List.mergeSort_perm
    (c.filter (fun e => e.1 != key) ++ [(key, v, now)]) entryLe
  have hS := hperm.symm.nodup hnodup
  have hmemS : (key, v, now) ∈
      (c.filter (fun e => e.1 != key) ++ [(key, v, now)]).mergeSort entryLe :=
    List.mem_mergeSort.mpr (List.mem_append_right _ (List.mem_singleton.mpr rfl))
  obtain ⟨U, V, hUV⟩ := List.append_of_mem hmemS
  refine ⟨U, ?_⟩
  rw [hUV]
  suffices hV : V = [] by rw [hV]
  by_contra hne
  obtain ⟨x, hxV⟩ := List.exists_mem_of_ne_nil V hne
  have hxS : x ∈
      (c.filter (fun e => e.1 != key) ++ [(key, v, now)]).mergeSort entryLe := by
    rw [hUV]
    exact List.mem_append_right _ (List.mem_cons_of_mem _ hxV)
  have hnUV := hS
  rw [hUV] at hnUV
  have hnodupCons : ((key, v, now) :: V).Nodup := hnUV.of_append_right
  have hnewNotV : (key, v, now) ∉ V := (List.nodup_cons.mp hnodupCons).1
  have hxne : x ≠ (key, v, now) := fun h => hnewNotV (h ▸ hxV)
  have hxc1 : x ∈ c.filter (fun e => e.1 != key) ++ [(key, v, now)] :=
    hperm.subset hxS
  have hxfil : x ∈ c.filter (fun e => e.1 != key) := by
    rcases List.mem_append.mp hxc1 with h | h
    · exact h
    · exact absurd (List.mem_singleton.mp h) hxne
  have hxc : x ∈ c := (List.mem_filter.mp hxfil).1
  have hxle : entryLe x (key, v, now) = true := by
    unfold entryLe
    simp only [decide_eq_true_eq]
    exact htime x hxc
  have hpair : List.Sublist [x, (key, v, now)]
      (c.filter (fun e => e.1 != key) ++ [(key, v, now)]) :=
    List.Sublist.append (List.singleton_sublist.mpr hxfil) (List.Sublist.refl _)
  have hpairS := List.pair_sublist_mergeSort
    (fun a b c2 h1 h2 => entryLe_trans a b c2 h1 h2) entryLe_total hxle hpair
  rw [hUV] at hpairS
  have hdisj := (List.nodup_append.mp hnUV).2.2
  rcases List.sublist_append_iff.mp hpairS with ⟨l₃, l₄, heq, hl₃, hl₄⟩
  rcases l₃ with _ | ⟨a, _ | ⟨b, l₃'⟩⟩
  · rw [List.nil_append] at heq
    rw [← heq] at hl₄
    cases hl₄ with
    | cons₂ h => exact hxne rfl
    | cons _ h =>
      exact hnewNotV (h.subset (List.mem_cons_of_mem _ (List.mem_cons_self _ _)))
  · simp only [List.cons_append, List.nil_append, List.cons.injEq] at heq
    obtain ⟨hax, hl4⟩ := heq
    have hxU : x ∈ U := hax ▸ List.singleton_sublist.mp hl₃
    exact hdisj hxU (List.mem_cons_of_mem _ hxV)
  · simp only [List.cons_append, List.cons.injEq] at heq
    obtain ⟨hax, hbn, _⟩ := heq
    have hnewU : (key, v, now) ∈ U :=
      hbn ▸ hl₃.subset (List.mem_cons_of_mem _ (List.mem_cons_self _ _))
    exact hdisj hnewU (List.mem_cons_self _ _)

lemma newEntry_mem_cachePut {α : Type} (now : Int) (key : String) (v : α)
    (c : List (String × α × Int)) (hkeys : (c.map Prod.fst).Nodup)
    (htime : ∀ e ∈ c, e.2.2 ≤ now) :
    (key, v, now) ∈ cachePut now key v c := by
  unfold cachePut
  dsimp only
  split
  · rename_i hlen
    obtain ⟨U, hU⟩ := newEntry_last now key v c hkeys htime
    have h1 : ((c.filter (fun e => e.1 != key) ++
          [(key, v, now)]).mergeSort entryLe).length =
        (c.filter (fun e => e.1 != key) ++ [(key, v, now)]).length :=
      List.length_mergeSort _
    rw [hU] at h1
    rw [List.length_append, List.length_cons, List.length_nil] at h1
    rw [hU]
    apply mem_drop_last
    omega
  · exact List.mem_append_right _ (List.mem_singleton.mpr rfl)

lemma cachePut_key_unique {α : Type} {now : Int} {key : String} {v : α}
    {c : List (String × α × Int)} (x : String × α × Int)
    (hx : x ∈ cachePut now key v c) (hk : (x.1 == key) = true) :
    x = (key, v, now) := by
  rcases List.mem_append.mp (mem_cachePut hx) with h | h
  · have hne := (List.mem_filter.mp h).2
    rw [bne_iff_ne] at hne
    exact absurd (by simpa using hk) hne
  · exact List.mem_singleton.mp h

lemma cachePut_find? {α : Type} (now : Int) (key : String) (v : α)
    (c : List (String × α × Int)) (hkeys : (c.map Prod.fst).Nodup)
    (htime : ∀ e ∈ c, e.2.2 ≤ now) :
    (cachePut now key v c).find? (fun e => e.1 == key) =
      some (key, v, now) := by
  apply find?_eq_some_of_unique
  · exact newEntry_mem_cachePut now key v c hkeys htime
  · simp
  · exact fun x hx hpx => cachePut_key_unique x hx hpx

/-- C9: for a cache whose keys are distinct and whose entries were
inserted no later than the put, a get within the 30-second TTL of a put
for a key returns the stored value; a get at or after the TTL is a miss
and evicts the stale entry; and a put that brings the table above the
100-entry capacity bound keeps exactly the 100 newest entries by insertion
time, evicting the oldest ones. -/
theorem claim_C9 :
    (∀ (α : Type) (now tp : Int) (key : String) (v : α)
        (c : List (String × α × Int)), (c.map Prod.fst).Nodup →
        (∀ e ∈ c, e.2.2 ≤ tp) → now - tp < 30 →
        (cacheGet now key (cachePut tp key v c)).1 = some v) ∧
    (∀ (α : Type) (now tp : Int) (key : String) (v : α)
        (c : List (String × α × Int)), (c.map Prod.fst).Nodup →
        (∀ e ∈ c, e.2.2 ≤ tp) → 30 ≤ now - tp →
        (cacheGet now key (cachePut tp key v c)).1 = none ∧
        (cacheGet now key (cachePut tp key v c)).2.find?
          (fun e => e.1 == key) = none) ∧
    (∀ (α : Type) (now : Int) (key : String) (v : α)
        (c : List (String × α × Int)),
        100 < (c.filter (fun e => e.1 != key)).length + 1 →
        (cachePut now key v c).length = 100 ∧
        ∃ ev, (ev ++ cachePut now key v c).Perm
            (c.filter (fun e => e.1 != key) ++ [(key, v, now)]) ∧
          ∀ a ∈ ev, ∀ b ∈ cachePut now key v c, a.2.2 ≤ b.2.2) := by
  refine ⟨?_, ?_, ?_⟩
  · intro α now tp key v c hkeys htime hfresh
    unfold cacheGet
    rw [cachePut_find? tp key v c hkeys htime]
    simp [hfresh]
  · intro α now tp key v c hkeys htime hstale
    have hcond : ¬ now - tp < 30 := by omega
    have h1 : (cacheGet now key (cachePut tp key v c)).1 = none := by
      unfold cacheGet
      rw [cachePut_find? tp key v c hkeys htime]
      simp [hcond]
    have h2 : (cacheGet now key (cachePut tp key v c)).2 =
        (cachePut tp key v c).filter (fun x => x.1 != key) := by
      unfold cacheGet
      rw [cachePut_find? tp key v c hkeys htime]
      simp [hcond]
    refine ⟨h1, ?_⟩
    rw [h2, List.find?_eq_none]
    intro x hx
    have hne := (List.mem_filter.mp hx).2
    rw [bne_iff_ne] at hne
    simp [hne]
  · intro α now key v c hover
    have hc1 : 100 <
        (c.filter (fun e => e.1 != key) ++ [(key, v, now)]).length := by
      rw [List.length_append, List.length_cons, List.length_nil]
      omega
    have hput : cachePut now key v c =
        ((c.filter (fun e => e.1 != key) ++
            [(key, v, now)]).mergeSort entryLe).drop
          ((c.filter (fun e => e.1 != key) ++ [(key, v, now)]).length - 100) := by
      unfold cachePut
      dsimp only
      rw [if_pos hc1]
    have hlenS : ((c.filter (fun e => e.1 != key) ++
          [(key, v, now)]).mergeSort entryLe).length =
        (c.filter (fun e => e.1 != key) ++ [(key, v, now)]).length :=
      List.length_mergeSort _
    constructor
    · rw [hput, List.length_drop, hlenS]
      omega
    · refine ⟨((c.filter (fun e => e.1 != key) ++
          [(key, v, now)]).mergeSort entryLe).take
          ((c.filter (fun e => e.1 != key) ++ [(key, v, now)]).length - 100),
        ?_, ?_⟩
      · rw [hput, List.take_append_drop]
        exact List.mergeSort_perm _ _
      · intro a ha b hb
        rw [hput] at hb
        have hsorted := List.sorted_mergeSort
          (fun x y z h1 h2 => entryLe_trans x y z h1 h2) entryLe_total
          (c.filter (fun e => e.1 != key) ++ [(key, v, now)])
        have hrel := List.Pairwise.rel_of_mem_take_of_mem_drop hsorted ha hb
        unfold entryLe at hrel
        simpa using hrel

/-- Witness for C9 at concrete inputs. -/
theorem claim_C9_witness :
    (cacheGet 20 "k" (cachePut 10 "k" 5 ([] : List (String × Nat × Int)))).1 =
      some 5 ∧
    (cacheGet 45 "k" (cachePut 15 "k" 5 ([] : List (String × Nat × Int)))).1 =
      none ∧
    ((cachePut 200 "k" 0
        (List.replicate 101 ("a", (0 : Nat), (0 : Int)))).length = 100 ∧
      ∃ ev, (ev ++ cachePut 200 "k" 0
            (List.replicate 101 ("a", (0 : Nat), (0 : Int)))).Perm
          ((List.replicate 101 ("a", (0 : Nat), (0 : Int))).filter
              (fun e => e.1 != "k") ++ [("k", 0, 200)]) ∧
        ∀ a ∈ ev, ∀ b ∈ cachePut 200 "k" 0
            (List.replicate 101 ("a", (0 : Nat), (0 : Int))), a.2.2 ≤ b.2.2) :=
  ⟨claim_C9.1 Nat 20 10 "k" 5 [] (by simp) (by simp) (by decide),
    (claim_C9.2.1 Nat 45 15 "k" 5 [] (by simp) (by simp) (by decide)).1,
    claim_C9.2.2 Nat 200 "k" 0
      (List.replicate 101 ("a", (0 : Nat), (0 : Int))) (by decide)⟩

end BuText
